import Mathlib

/-!
Shallow embedding of the histogram package (histogram.go, bucketboundaries.go).

Modelling conventions:
* Go int64 values are modelled as unbounded Int (the claims under study do not
  hinge on two's-complement wraparound).
* Go slices are Lean lists; a nil slice (as opposed to an empty one) is
  modelled with Option, which the constructor distinguishes exactly as the
  code does.
* A Go panic is modelled as Option.none / absence of a result.
* float64 results (Average, BucketAverage) are modelled as exact rationals;
  the claims about them only concern the zero-sample branch, which the code
  takes before performing any floating-point arithmetic.
-/

/-- The Histogram struct from histogram.go. -/
structure Histogram where
  bucketBoundaries : List Int
  bucketCounts : List Int
  bucketTotals : List Int
  numSamples : Int
  total : Int
deriving DecidableEq, Repr

/-- The two recoverable construction errors (emptyError, invalidBoundariesError). -/
inductive HError where
  | emptyError
  | invalidBoundariesError
deriving DecidableEq, Repr

/-- The validation loop of New: true iff some adjacent pair has
bucketBoundaries[i] >= bucketBoundaries[i+1]. -/
def invalidAdjacentPair : List Int → Bool
  | a :: b :: rest => decide (b ≤ a) || invalidAdjacentPair (b :: rest)
  | _ => false

/-- New: nil input yields emptyError; a non-increasing adjacent pair yields
invalidBoundariesError; otherwise a histogram with N+1 zeroed counters. -/
def New (bucketBoundaries : Option (List Int)) : Except HError Histogram :=
  match bucketBoundaries with
  | none => Except.error HError.emptyError
  | some bs =>
    if invalidAdjacentPair bs then Except.error HError.invalidBoundariesError
    else Except.ok
      { bucketBoundaries := bs
        bucketCounts := List.replicate (bs.length + 1) 0
        bucketTotals := List.replicate (bs.length + 1) 0
        numSamples := 0
        total := 0 }

/-- The loop of Go sort.Search: binary search on the half-open interval [i, j). -/
def sortSearchAux (f : Nat → Bool) (i j : Nat) : Nat :=
  if _h : i < j then
    let m := (i + j) / 2
    if f m then sortSearchAux f i m
    else sortSearchAux f (m + 1) j
  else i
termination_by j - i
decreasing_by
  all_goals omega

/-- Go sort.Search(n, f): smallest index in [0, n] found by binary search. -/
def sortSearch (n : Nat) (f : Nat → Bool) : Nat := sortSearchAux f 0 n

/-- math.MinInt64. -/
def minInt64 : Int := -(2 ^ 63)

/-- math.MaxInt64. -/
def maxInt64 : Int := 2 ^ 63 - 1

namespace Histogram

/-- The bucket-lookup rule shared by Increment and AtomicIncrement:
sort.Search over the boundaries with predicate bucketBoundaries[i] > val.
(The search only evaluates the predicate at indices < length, so the getD
default is never consulted.) -/
def bucketIndex (h : Histogram) (val : Int) : Nat :=
  sortSearch h.bucketBoundaries.length (fun i => decide (h.bucketBoundaries.getD i 0 > val))

/-- Increment: computes the bucket index and bumps the four counters.
The slice writes panic (none) when the index is out of range of the counter
slices, which cannot happen for a constructor-built histogram. -/
def Increment (h : Histogram) (val : Int) : Option Histogram :=
  let index := h.bucketIndex val
  if index < h.bucketCounts.length ∧ index < h.bucketTotals.length then
    some { h with
      bucketCounts := h.bucketCounts.set index (h.bucketCounts.getD index 0 + 1)
      bucketTotals := h.bucketTotals.set index (h.bucketTotals.getD index 0 + val)
      numSamples := h.numSamples + 1
      total := h.total + val }
  else none

/-- AtomicIncrement: the same index computation and the same four counter
updates as Increment, each performed with atomic.AddInt64; sequentially the
updates are identical. -/
def AtomicIncrement (h : Histogram) (val : Int) : Option Histogram :=
  let index := h.bucketIndex val
  if index < h.bucketCounts.length ∧ index < h.bucketTotals.length then
    some { h with
      bucketCounts := h.bucketCounts.set index (h.bucketCounts.getD index 0 + 1)
      bucketTotals := h.bucketTotals.set index (h.bucketTotals.getD index 0 + val)
      numSamples := h.numSamples + 1
      total := h.total + val }
  else none

/-- BucketRanges: explicit panic for index outside [0, N], then the three
branches of the source; the slice reads themselves can also panic (none),
which happens exactly when the accessed position does not exist. -/
def BucketRanges (h : Histogram) (index : Int) : Option (Int × Int) :=
  if index < 0 ∨ index > (h.bucketBoundaries.length : Int) then none
  else if index = 0 then
    match h.bucketBoundaries.get? index.toNat with
    | some b => some (minInt64, b)
    | none => none
  else if index = (h.bucketBoundaries.length : Int) then
    match h.bucketBoundaries.get? (index.toNat - 1) with
    | some b => some (b, maxInt64)
    | none => none
  else
    match h.bucketBoundaries.get? (index.toNat - 1), h.bucketBoundaries.get? index.toNat with
    | some lo, some hi => some (lo, hi)
    | _, _ => none

/-- BucketCount: raw read of bucketCounts[index]; out of range panics (none). -/
def BucketCount (h : Histogram) (index : Nat) : Option Int :=
  h.bucketCounts.get? index

/-- BucketTotal: raw read of bucketTotals[index]; out of range panics (none). -/
def BucketTotal (h : Histogram) (index : Nat) : Option Int :=
  h.bucketTotals.get? index

/-- BucketAverage: 0 when the bucket count is zero (bucketTotals is not even
read in that branch), otherwise the quotient. -/
def BucketAverage (h : Histogram) (index : Nat) : Option ℚ :=
  match h.bucketCounts.get? index with
  | none => none
  | some c =>
    if c = 0 then some 0
    else
      match h.bucketTotals.get? index with
      | none => none
      | some t => some ((t : ℚ) / (c : ℚ))

/-- Size: panics (none) when the two counter slices disagree in length,
otherwise the number of buckets. -/
def Size (h : Histogram) : Option Nat :=
  if h.bucketCounts.length = h.bucketTotals.length then some h.bucketCounts.length
  else none

/-- Count: the global number of samples. -/
def Count (h : Histogram) : Int := h.numSamples

/-- Total: the global sum of samples. -/
def Total (h : Histogram) : Int := h.total

/-- Average: 0 when there are no samples, otherwise total / numSamples. -/
def Average (h : Histogram) : ℚ :=
  if h.numSamples = 0 then 0 else (h.total : ℚ) / (h.numSamples : ℚ)

/-- Clear: after the length guard, the loop over bucketCounts zeroes both
counter slices and (on every iteration) the two global counters; when the
loop body never runs the globals keep their values. -/
def Clear (h : Histogram) : Option Histogram :=
  if h.bucketCounts.length = h.bucketTotals.length then
    some { h with
      bucketCounts := List.replicate h.bucketCounts.length 0
      bucketTotals := List.replicate h.bucketTotals.length 0
      numSamples := if h.bucketCounts.length = 0 then h.numSamples else 0
      total := if h.bucketCounts.length = 0 then h.total else 0 }
  else none

/-- IncrementFromHistogram: panics (none) when the boundary lengths differ;
the loop then runs over the indices of the target bucketCounts, adding the
source counters elementwise, and panics (none) when any of the other three
slices is too short for those indices; finally the globals are added. -/
def IncrementFromHistogram (h other : Histogram) : Option Histogram :=
  if other.bucketBoundaries.length = h.bucketBoundaries.length then
    if h.bucketCounts.length ≤ other.bucketCounts.length ∧
        h.bucketCounts.length ≤ h.bucketTotals.length ∧
        h.bucketCounts.length ≤ other.bucketTotals.length then
      some { h with
        bucketCounts := List.zipWith (· + ·) h.bucketCounts other.bucketCounts
        bucketTotals :=
          List.zipWith (· + ·) (h.bucketTotals.take h.bucketCounts.length)
            (other.bucketTotals.take h.bucketCounts.length) ++
            h.bucketTotals.drop h.bucketCounts.length
        numSamples := h.numSamples + other.numSamples
        total := h.total + other.total }
    else none
  else none

/-- DecrementFromHistogram: same shape as IncrementFromHistogram with
elementwise subtraction. -/
def DecrementFromHistogram (h other : Histogram) : Option Histogram :=
  if other.bucketBoundaries.length = h.bucketBoundaries.length then
    if h.bucketCounts.length ≤ other.bucketCounts.length ∧
        h.bucketCounts.length ≤ h.bucketTotals.length ∧
        h.bucketCounts.length ≤ other.bucketTotals.length then
      some { h with
        bucketCounts := List.zipWith (· - ·) h.bucketCounts other.bucketCounts
        bucketTotals :=
          List.zipWith (· - ·) (h.bucketTotals.take h.bucketCounts.length)
            (other.bucketTotals.take h.bucketCounts.length) ++
            h.bucketTotals.drop h.bucketCounts.length
        numSamples := h.numSamples - other.numSamples
        total := h.total - other.total }
    else none
  else none

/-- Copy: a histogram with copies of the three slices and the same globals;
with value semantics the copy is equal to the original. -/
def Copy (h : Histogram) : Histogram :=
  { bucketBoundaries := h.bucketBoundaries
    bucketCounts := h.bucketCounts
    bucketTotals := h.bucketTotals
    numSamples := h.numSamples
    total := h.total }

/-- Well-formedness maintained for every histogram the package can build:
both counter slices have one more entry than the boundary slice. -/
def WF (h : Histogram) : Prop :=
  h.bucketCounts.length = h.bucketBoundaries.length + 1 ∧
  h.bucketTotals.length = h.bucketBoundaries.length + 1

/-- The quiescent-state invariant: the globals equal the bucket sums. -/
def Quiescent (h : Histogram) : Prop :=
  h.numSamples = h.bucketCounts.sum ∧ h.total = h.bucketTotals.sum

end Histogram

/-- Range from bucketboundaries.go: the accumulation loop filling the slots
of the result slice, each step advancing the running value by step. -/
def rangeLoop (step : Int) : Nat → Int → List Int
  | 0, _ => []
  | n + 1, value => value :: rangeLoop step n (value + step)

/-- Range: nil (none) for a zero step or a direction mismatch, otherwise
(stop-start)/step + 1 values (Go division truncates toward zero). -/
def Range (start stop step : Int) : Option (List Int) :=
  if step = 0 then none
  else if step > 0 ∧ start > stop then none
  else if step < 0 ∧ start < stop then none
  else some (rangeLoop step ((stop - start).tdiv step + 1).toNat start)

/-- The single-writer operations of the spec, as applied to a target
histogram (merge and subtract carry their source histogram). -/
inductive Op where
  | increment : Int → Op
  | atomicIncrement : Int → Op
  | clear : Op
  | incrementFrom : Histogram → Op
  | decrementFrom : Histogram → Op
  | copy : Op

/-- One step: the state of the target after the operation (Copy returns the
duplicate, which is the state the sequence continues from; its receiver is
untouched). -/
def runOp (h : Histogram) : Op → Option Histogram
  | Op.increment v => h.Increment v
  | Op.atomicIncrement v => h.AtomicIncrement v
  | Op.clear => h.Clear
  | Op.incrementFrom o => h.IncrementFromHistogram o
  | Op.decrementFrom o => h.DecrementFromHistogram o
  | Op.copy => some h.Copy

def runOps (h : Histogram) : List Op → Option Histogram
  | [] => some h
  | op :: ops =>
    match runOp h op with
    | some h' => runOps h' ops
    | none => none

/-- Source histograms fed to merge/subtract are themselves histograms the
package built, so they are well-formed and quiescent. -/
def opSourceOK : Op → Prop
  | Op.incrementFrom o => o.WF ∧ o.Quiescent
  | Op.decrementFrom o => o.WF ∧ o.Quiescent
  | _ => True

/-- A concrete histogram for witnesses: the successful result of
New on boundaries [1, 2, 3, 4]. -/
def hTest : Histogram :=
  { bucketBoundaries := [1, 2, 3, 4]
    bucketCounts := [0, 0, 0, 0, 0]
    bucketTotals := [0, 0, 0, 0, 0]
    numSamples := 0
    total := 0 }

/-- The state of hTest after Increment(1). -/
def hRun1 : Histogram :=
  { bucketBoundaries := [1, 2, 3, 4]
    bucketCounts := [0, 1, 0, 0, 0]
    bucketTotals := [0, 1, 0, 0, 0]
    numSamples := 1
    total := 1 }

/-! Helper lemmas. -/

/-- Correctness of the binary-search loop for a predicate that is monotone
below n: the result is the least index of [i, j] at which the predicate
holds (j when it never does). -/
theorem sortSearchAux_spec (f : Nat → Bool) (n : Nat)
    (mono : ∀ a b, a ≤ b → b < n → f a = true → f b = true) :
    ∀ i j, i ≤ j → j ≤ n →
      i ≤ sortSearchAux f i j ∧ sortSearchAux f i j ≤ j ∧
      (∀ k, i ≤ k → k < sortSearchAux f i j → f k = false) ∧
      (sortSearchAux f i j < j → f (sortSearchAux f i j) = true) := by
  intro i j
  induction i, j using sortSearchAux.induct f with
  | case1 i j hij m hm ih =>
    intro _ hjn
    have hmj : m < j := by omega
    have hstep : sortSearchAux f i j = sortSearchAux f i m := by
      rw [sortSearchAux]
      simp [hij, hm]
    rw [hstep]
    obtain ⟨h1, h2, h3, h4⟩ := ih (by omega) (by omega)
    refine ⟨h1, by omega, h3, fun _ => ?_⟩
    rcases Nat.lt_or_ge (sortSearchAux f i m) m with hlt | hge
    · exact h4 hlt
    · have heq : sortSearchAux f i m = m := by omega
      rw [heq]; exact hm
  | case2 i j hij m hm ih =>
    intro _ hjn
    have hmj : m < j := by omega
    have him : i ≤ m := by omega
    have hstep : sortSearchAux f i j = sortSearchAux f (m + 1) j := by
      rw [sortSearchAux]
      simp [hij, hm]
    rw [hstep]
    obtain ⟨h1, h2, h3, h4⟩ := ih (by omega) hjn
    refine ⟨by omega, h2, fun k hk1 hk2 => ?_, h4⟩
    rcases Nat.lt_or_ge k (m + 1) with hlt | hge
    · by_contra hcon
      have hfk : f k = true := by
        cases hfk : f k with
        | false => exact absurd hfk hcon
        | true => rfl
      exact hm (mono k m (by omega) (by omega) hfk)
    · exact h3 k hge hk2
  | case3 i j hij =>
    intro hle _
    have hstep : sortSearchAux f i j = i := by
      rw [sortSearchAux]
      simp [hij]
    rw [hstep]
    exact ⟨Nat.le_refl i, hle, fun k hk1 hk2 => by omega, fun hc => absurd hc hij⟩

/-- A strictly increasing list is monotone under getD for in-range indices. -/
theorem getD_mono_of_chain_lt (l : List Int) (hinc : List.Chain' (· < ·) l)
    (a b : Nat) (hab : a ≤ b) (hb : b < l.length) : l.getD a 0 ≤ l.getD b 0 := by
  rcases Nat.lt_or_eq_of_le hab with hlt | heq
  · have hp := List.chain'_iff_pairwise.mp hinc
    have hg := List.pairwise_iff_get.mp hp ⟨a, by omega⟩ ⟨b, hb⟩ hlt
    rw [List.getD_eq_getElem l 0 (by omega : a < l.length), List.getD_eq_getElem l 0 hb]
    simp only [List.get_eq_getElem] at hg
    exact le_of_lt hg
  · subst heq; exact le_refl _

/-- The bucket-lookup rule returns the smallest index in [0, N] whose
boundary exceeds the value (N when none does), for strictly increasing
boundaries. -/
theorem bucketIndex_le_and_least (h : Histogram) (v : Int)
    (hinc : List.Chain' (· < ·) h.bucketBoundaries) :
    h.bucketIndex v ≤ h.bucketBoundaries.length ∧
    (∀ j, j < h.bucketIndex v → h.bucketBoundaries.getD j 0 ≤ v) ∧
    (h.bucketIndex v < h.bucketBoundaries.length →
      v < h.bucketBoundaries.getD (h.bucketIndex v) 0) := by
  have mono : ∀ a b, a ≤ b → b < h.bucketBoundaries.length →
      (fun i => decide (h.bucketBoundaries.getD i 0 > v)) a = true →
      (fun i => decide (h.bucketBoundaries.getD i 0 > v)) b = true := by
    intro a b hab hb ha
    simp only [decide_eq_true_eq] at ha ⊢
    have := getD_mono_of_chain_lt _ hinc a b hab hb
    omega
  obtain ⟨h1, h2, h3, h4⟩ :=
    sortSearchAux_spec _ _ mono 0 h.bucketBoundaries.length (Nat.zero_le _) (le_refl _)
  have hidx : h.bucketIndex v =
      sortSearchAux (fun i => decide (h.bucketBoundaries.getD i 0 > v)) 0
        h.bucketBoundaries.length := rfl
  rw [hidx]
  refine ⟨h2, fun j hj => ?_, fun hlt => ?_⟩
  · have hfj := h3 j (Nat.zero_le _) hj
    simp only [decide_eq_false_iff_not, not_lt] at hfj
    exact hfj
  · have hfr := h4 hlt
    simp only [decide_eq_true_eq] at hfr
    exact hfr

/-- Writing getD-plus-delta at an in-range index shifts the sum by delta. -/
theorem sum_set_getD_add (l : List Int) (i : Nat) (d : Int) (hi : i < l.length) :
    (l.set i (l.getD i 0 + d)).sum = l.sum + d := by
  induction l generalizing i with
  | nil => simp at hi
  | cons a l ih =>
    cases i with
    | zero => simp [List.getD_cons_zero]; ring
    | succ n =>
      simp only [List.set_cons_succ, List.getD_cons_succ, List.sum_cons]
      rw [ih n (by simpa using hi)]
      ring

/-- getD after a set at the written index. -/
theorem getD_set_self (l : List Int) (i : Nat) (a : Int) (hi : i < l.length) :
    (l.set i a).getD i 0 = a := by
  rw [List.getD_eq_getElem _ 0 (by simpa using hi)]
  exact List.getElem_set_self _

/-- getD after a set at any other index. -/
theorem getD_set_ne (l : List Int) (i j : Nat) (a : Int) (hne : j ≠ i) :
    (l.set i a).getD j 0 = l.getD j 0 := by
  rcases Nat.lt_or_ge j l.length with hj | hj
  · rw [List.getD_eq_getElem _ 0 (by simpa using hj), List.getD_eq_getElem _ 0 hj]
    exact List.getElem_set_ne (fun hc => hne hc.symm) _
  · rw [List.getD_eq_default _ 0 (by simpa using hj), List.getD_eq_default _ 0 hj]

/-- Elementwise addition of equal-length lists adds the sums. -/
theorem sum_zipWith_add (a b : List Int) (hl : a.length = b.length) :
    (List.zipWith (· + ·) a b).sum = a.sum + b.sum := by
  induction a generalizing b with
  | nil => cases b with
    | nil => simp
    | cons y ys => simp at hl
  | cons x xs ih =>
    cases b with
    | nil => simp at hl
    | cons y ys =>
      simp only [List.zipWith_cons_cons, List.sum_cons]
      rw [ih ys (by simpa using hl)]
      ring

/-- Elementwise subtraction of equal-length lists subtracts the sums. -/
theorem sum_zipWith_sub (a b : List Int) (hl : a.length = b.length) :
    (List.zipWith (· - ·) a b).sum = a.sum - b.sum := by
  induction a generalizing b with
  | nil => cases b with
    | nil => simp
    | cons y ys => simp at hl
  | cons x xs ih =>
    cases b with
    | nil => simp at hl
    | cons y ys =>
      simp only [List.zipWith_cons_cons, List.sum_cons]
      rw [ih ys (by simpa using hl)]
      ring

/-- Adding then subtracting the same list elementwise is the identity when
the second list is at least as long. -/
theorem zipWith_add_sub_cancel (a b : List Int) (hl : a.length ≤ b.length) :
    List.zipWith (· - ·) (List.zipWith (· + ·) a b) b = a := by
  induction a generalizing b with
  | nil => simp
  | cons x xs ih =>
    cases b with
    | nil => simp at hl
    | cons y ys =>
      simp only [List.zipWith_cons_cons]
      rw [ih ys (by simpa using hl)]
      simp

example : New (some [1, 2, 3, 3, 4]) = Except.error HError.invalidBoundariesError := rfl
example : New (some [10, 24, 1, 4]) = Except.error HError.invalidBoundariesError := rfl
example : New none = Except.error HError.emptyError := rfl
example : Range 1 10 3 = some [1, 4, 7, 10] := by decide
example : Range 10 1 (-3) = some [10, 7, 4, 1] := by decide
example : Range 1 10 (-3) = none := by decide
example : Range 10 1 3 = none := by decide
example : Range 0 0 0 = none := by decide

/-! Claim theorems. -/

/-- C8: in a sequential setting AtomicIncrement and Increment have identical
semantics on every histogram: same bucket lookup, same four counter updates,
equal resulting states. -/
theorem atomicIncrement_eq_increment (h : Histogram) (v : Int) :
    h.AtomicIncrement v = h.Increment v := rfl

/-- C9: BucketAverage returns 0 (not an error) whenever the bucket count at
an in-range index is zero, and Average returns 0 when the global sample
count is zero; no division by zero is performed in these cases. -/
theorem average_zero_defaults (h : Histogram) (i : Nat) :
    (i < h.bucketCounts.length → h.bucketCounts.getD i 0 = 0 →
      h.BucketAverage i = some 0) ∧
    (h.numSamples = 0 → h.Average = 0) := by
  constructor
  · intro hi hz
    have hget : h.bucketCounts[i]? = some 0 := by
      rw [List.getElem?_eq_getElem hi]
      rw [List.getD_eq_getElem h.bucketCounts 0 hi] at hz
      rw [hz]
    simp [Histogram.BucketAverage, hget]
  · intro hz
    simp [Histogram.Average, hz]

theorem average_zero_defaults_witness :
    0 < hTest.bucketCounts.length ∧ hTest.bucketCounts.getD 0 0 = 0 ∧
    hTest.BucketAverage 0 = some 0 ∧ hTest.numSamples = 0 ∧ hTest.Average = 0 :=
  ⟨by decide, by decide,
    (average_zero_defaults hTest 0).1 (by decide) (by decide),
    rfl,
    (average_zero_defaults hTest 0).2 rfl⟩

/-- C10: New accepts the empty (non-nil) boundary slice, producing a
histogram with a single bucket and Size 1; index 0 then passes the explicit
bound check of BucketRanges (0 is inside [0, N] = [0, 0]) yet the method
panics by reading position 0 of the empty boundary slice. -/
theorem bucketRanges_empty_boundaries_panics :
    (∃ h0 : Histogram,
      New (some []) = Except.ok h0 ∧
      h0.bucketBoundaries = [] ∧
      h0.Size = some 1 ∧
      ¬((0 : Int) < 0 ∨ (0 : Int) > (h0.bucketBoundaries.length : Int)) ∧
      h0.BucketRanges 0 = none) := by
  refine ⟨{ bucketBoundaries := []
            bucketCounts := [0]
            bucketTotals := [0]
            numSamples := 0
            total := 0 }, rfl, rfl, rfl, by simp, ?_⟩
  simp [Histogram.BucketRanges]

/-- The validation loop accepts exactly the strictly increasing sequences. -/
theorem invalidAdjacentPair_eq_false_iff (bs : List Int) :
    invalidAdjacentPair bs = false ↔ List.Chain' (· < ·) bs := by
  induction bs with
  | nil => simp [invalidAdjacentPair]
  | cons a l ih =>
    cases l with
    | nil => simp [invalidAdjacentPair]
    | cons b m =>
      rw [show invalidAdjacentPair (a :: b :: m) =
            (decide (b ≤ a) || invalidAdjacentPair (b :: m)) from rfl]
      rw [List.chain'_cons, Bool.or_eq_false_iff]
      rw [ih]
      simp only [decide_eq_false_iff_not, not_le]

/-- The validation loop rejects exactly the sequences with a non-increasing
adjacent pair. -/
theorem invalidAdjacentPair_eq_true_iff (bs : List Int) :
    invalidAdjacentPair bs = true ↔
      ∃ i, i + 1 < bs.length ∧ bs.getD (i + 1) 0 ≤ bs.getD i 0 := by
  induction bs with
  | nil => simp [invalidAdjacentPair]
  | cons a l ih =>
    cases l with
    | nil => simp [invalidAdjacentPair]
    | cons b m =>
      rw [show invalidAdjacentPair (a :: b :: m) =
            (decide (b ≤ a) || invalidAdjacentPair (b :: m)) from rfl]
      simp only [Bool.or_eq_true, decide_eq_true_eq, ih]
      constructor
      · rintro (hba | ⟨i, hi, hle⟩)
        · exact ⟨0, by simp, by simpa using hba⟩
        · refine ⟨i + 1, by simpa using hi, ?_⟩
          simpa using hle
      · rintro ⟨i, hi, hle⟩
        cases i with
        | zero => left; simpa using hle
        | succ n =>
          right
          refine ⟨n, by simpa using hi, ?_⟩
          simpa using hle

/-- C2: New fails with emptyError exactly on a nil boundary sequence (an
empty non-nil sequence is not rejected), fails with invalidBoundariesError
exactly when some adjacent pair is non-increasing, and otherwise returns a
histogram with N+1 zero bucket counts, N+1 zero bucket totals, and zero
global count and total. -/
theorem new_spec :
    (∀ obs : Option (List Int),
      New obs = Except.error HError.emptyError ↔ obs = none) ∧
    (∀ bs : List Int,
      New (some bs) = Except.error HError.invalidBoundariesError ↔
        ∃ i, i + 1 < bs.length ∧ bs.getD (i + 1) 0 ≤ bs.getD i 0) ∧
    (∀ bs : List Int, List.Chain' (· < ·) bs →
      New (some bs) = Except.ok
        { bucketBoundaries := bs
          bucketCounts := List.replicate (bs.length + 1) 0
          bucketTotals := List.replicate (bs.length + 1) 0
          numSamples := 0
          total := 0 }) := by
  refine ⟨fun obs => ?_, fun bs => ?_, fun bs hinc => ?_⟩
  · cases obs with
    | none => simp [New]
    | some bs =>
      simp only [New]
      constructor
      · intro hcon
        split at hcon <;> simp at hcon
      · intro hcon
        exact absurd hcon (by simp)
  · rw [← invalidAdjacentPair_eq_true_iff]
    simp only [New]
    constructor
    · intro hcon
      by_contra hfalse
      rw [Bool.not_eq_true] at hfalse
      rw [if_neg (by simp [hfalse])] at hcon
      simp at hcon
    · intro htrue
      rw [if_pos htrue]
  · have hfalse : invalidAdjacentPair bs = false :=
      (invalidAdjacentPair_eq_false_iff bs).mpr hinc
    simp only [New]
    rw [if_neg (by simp [hfalse])]

theorem new_spec_witness :
    New (some [1, 2, 3, 4]) = Except.ok
      { bucketBoundaries := [1, 2, 3, 4]
        bucketCounts := List.replicate 5 0
        bucketTotals := List.replicate 5 0
        numSamples := 0
        total := 0 } :=
  new_spec.2.2 [1, 2, 3, 4] (by norm_num [hTest, List.chain'_cons])

theorem rangeLoop_length (step : Int) (n : Nat) (value : Int) :
    (rangeLoop step n value).length = n := by
  induction n generalizing value with
  | zero => rfl
  | succ k ih => simp [rangeLoop, ih]

theorem rangeLoop_getD (step : Int) (n : Nat) (value : Int) (i : Nat) (hi : i < n) :
    (rangeLoop step n value).getD i 0 = value + step * i := by
  induction n generalizing value i with
  | zero => omega
  | succ k ih =>
    cases i with
    | zero => simp [rangeLoop]
    | succ j =>
      simp only [rangeLoop, List.getD_cons_succ]
      rw [ih (value + step) j (by omega)]
      push_cast
      ring

/-- C5: Range yields no result for a zero step or a direction mismatch; in
every other case it yields exactly (stop - start) / step + 1 elements
(division truncating toward zero), starting at start and advancing by step
each element; in particular Range(1,10,3) = [1,4,7,10] and
Range(10,1,-3) = [10,7,4,1]. -/
theorem range_spec :
    (∀ start stop step : Int,
      step = 0 ∨ (step > 0 ∧ start > stop) ∨ (step < 0 ∧ start < stop) →
        Range start stop step = none) ∧
    (∀ start stop step : Int,
      step ≠ 0 → ¬(step > 0 ∧ start > stop) → ¬(step < 0 ∧ start < stop) →
      ∃ l, Range start stop step = some l ∧
        (l.length : Int) = (stop - start).tdiv step + 1 ∧
        l.getD 0 0 = start ∧
        (∀ i, i + 1 < l.length → l.getD (i + 1) 0 = l.getD i 0 + step)) ∧
    Range 1 10 3 = some [1, 4, 7, 10] ∧
    Range 10 1 (-3) = some [10, 7, 4, 1] := by
  refine ⟨fun start stop step hbad => ?_, fun start stop step h0 hpos hneg => ?_,
    by decide, by decide⟩
  · rcases hbad with h0 | ⟨hs, hd⟩ | ⟨hs, hd⟩
    · simp [Range, h0]
    · rw [Range, if_neg (by omega), if_pos ⟨hs, hd⟩]
    · rw [Range, if_neg (by omega), if_neg (by omega), if_pos ⟨hs, hd⟩]
  · have hq : 0 ≤ (stop - start).tdiv step := by
      rcases lt_trichotomy step 0 with hs | hs | hs
      · have hd : stop ≤ start := by omega
        have hrw : (stop - start).tdiv step = (-(stop - start)).tdiv (-step) := by
          rw [Int.neg_tdiv, Int.tdiv_neg, neg_neg]
        rw [hrw]
        exact Int.tdiv_nonneg (by omega) (by omega)
      · omega
      · have hd : start ≤ stop := by omega
        exact Int.tdiv_nonneg (by omega) (by omega)
    have hlenpos : 0 < ((stop - start).tdiv step + 1).toNat := by omega
    refine ⟨rangeLoop step ((stop - start).tdiv step + 1).toNat start, ?_, ?_, ?_, ?_⟩
    · rw [Range, if_neg h0, if_neg hpos, if_neg hneg]
    · rw [rangeLoop_length]
      omega
    · rw [rangeLoop_getD step _ start 0 (by omega)]
      simp
    · intro i hi
      rw [rangeLoop_length] at hi
      rw [rangeLoop_getD step _ start (i + 1) hi, rangeLoop_getD step _ start i (by omega)]
      push_cast
      ring

theorem range_spec_witness :
    ∃ l, Range 1 10 3 = some l ∧
      (l.length : Int) = ((10 : Int) - 1).tdiv 3 + 1 ∧
      l.getD 0 0 = 1 ∧
      (∀ i, i + 1 < l.length → l.getD (i + 1) 0 = l.getD i 0 + 3) :=
  range_spec.2.1 1 10 3 (by decide) (by decide) (by decide)

theorem get_eq_some_getD (l : List Int) (k : Nat) (hk : k < l.length) :
    l.get? k = some (l.getD k 0) := by
  rw [List.getD_eq_getElem l 0 hk, List.get?_eq_getElem?, List.getElem?_eq_getElem hk]

/-- C6: for N >= 1 boundaries, BucketRanges(0) = (minInt64, boundaries[0]),
BucketRanges(N) = (boundaries[N-1], maxInt64), interior indices give
(boundaries[i-1], boundaries[i]), and any index outside [0, N] panics
rather than returning a recoverable error. -/
theorem bucketRanges_spec (h : Histogram) (hN : 1 ≤ h.bucketBoundaries.length) :
    (∀ index : Int, index < 0 ∨ index > (h.bucketBoundaries.length : Int) →
      h.BucketRanges index = none) ∧
    h.BucketRanges 0 = some (minInt64, h.bucketBoundaries.getD 0 0) ∧
    h.BucketRanges (h.bucketBoundaries.length : Int) =
      some (h.bucketBoundaries.getD (h.bucketBoundaries.length - 1) 0, maxInt64) ∧
    (∀ index : Int, 0 < index → index < (h.bucketBoundaries.length : Int) →
      h.BucketRanges index =
        some (h.bucketBoundaries.getD (index.toNat - 1) 0,
          h.bucketBoundaries.getD index.toNat 0)) := by
  refine ⟨fun index hout => ?_, ?_, ?_, fun index hlo hhi => ?_⟩
  · rw [Histogram.BucketRanges, if_pos hout]
  · rw [Histogram.BucketRanges, if_neg (by omega), if_pos rfl]
    rw [show (0 : Int).toNat = 0 from rfl]
    rw [get_eq_some_getD _ 0 (by omega)]
  · rw [Histogram.BucketRanges, if_neg (by omega)]
    rw [if_neg (by omega), if_pos rfl]
    rw [show ((h.bucketBoundaries.length : Int)).toNat = h.bucketBoundaries.length by omega]
    rw [get_eq_some_getD _ (h.bucketBoundaries.length - 1) (by omega)]
  · have ht1 : index.toNat - 1 < h.bucketBoundaries.length := by omega
    have ht2 : index.toNat < h.bucketBoundaries.length := by omega
    rw [Histogram.BucketRanges, if_neg (by omega), if_neg (by omega), if_neg (by omega)]
    rw [get_eq_some_getD _ _ ht1, get_eq_some_getD _ _ ht2]

theorem bucketRanges_spec_witness :
    1 ≤ hTest.bucketBoundaries.length ∧
    hTest.BucketRanges 0 = some (minInt64, hTest.bucketBoundaries.getD 0 0) ∧
    hTest.BucketRanges (hTest.bucketBoundaries.length : Int) =
      some (hTest.bucketBoundaries.getD (hTest.bucketBoundaries.length - 1) 0, maxInt64) ∧
    hTest.BucketRanges 2 =
      some (hTest.bucketBoundaries.getD ((2 : Int).toNat - 1) 0,
        hTest.bucketBoundaries.getD (2 : Int).toNat 0) :=
  ⟨by decide, (bucketRanges_spec hTest (by decide)).2.1,
    (bucketRanges_spec hTest (by decide)).2.2.1,
    (bucketRanges_spec hTest (by decide)).2.2.2 2 (by decide) (by decide)⟩

/-- C1: for strictly increasing boundaries of length N, Increment(v)
increments bucketCounts[i] by 1 and bucketTotals[i] by v at the smallest
index i in [0, N] with boundaries[i] > v (i = N when no boundary exceeds
v), increments the global sample count by 1 and the global total by v, and
leaves every other bucket counter and the boundaries unchanged. -/
theorem increment_spec (h : Histogram) (v : Int) (hwf : h.WF)
    (hinc : List.Chain' (· < ·) h.bucketBoundaries) :
    h.bucketIndex v ≤ h.bucketBoundaries.length ∧
    (∀ j, j < h.bucketIndex v → h.bucketBoundaries.getD j 0 ≤ v) ∧
    (h.bucketIndex v < h.bucketBoundaries.length →
      v < h.bucketBoundaries.getD (h.bucketIndex v) 0) ∧
    ∃ h', h.Increment v = some h' ∧
      h'.bucketBoundaries = h.bucketBoundaries ∧
      h'.bucketCounts.getD (h.bucketIndex v) 0 = h.bucketCounts.getD (h.bucketIndex v) 0 + 1 ∧
      h'.bucketTotals.getD (h.bucketIndex v) 0 = h.bucketTotals.getD (h.bucketIndex v) 0 + v ∧
      (∀ j, j ≠ h.bucketIndex v → h'.bucketCounts.getD j 0 = h.bucketCounts.getD j 0) ∧
      (∀ j, j ≠ h.bucketIndex v → h'.bucketTotals.getD j 0 = h.bucketTotals.getD j 0) ∧
      h'.numSamples = h.numSamples + 1 ∧
      h'.total = h.total + v := by
  obtain ⟨hle, hleast, hgt⟩ := bucketIndex_le_and_least h v hinc
  obtain ⟨hwc, hwt⟩ := hwf
  have hcond : h.bucketIndex v < h.bucketCounts.length ∧
      h.bucketIndex v < h.bucketTotals.length := ⟨by omega, by omega⟩
  refine ⟨hle, hleast, hgt,
    ⟨{ h with
        bucketCounts :=
          h.bucketCounts.set (h.bucketIndex v) (h.bucketCounts.getD (h.bucketIndex v) 0 + 1)
        bucketTotals :=
          h.bucketTotals.set (h.bucketIndex v) (h.bucketTotals.getD (h.bucketIndex v) 0 + v)
        numSamples := h.numSamples + 1
        total := h.total + v }, if_pos hcond, rfl, ?_, ?_, ?_, ?_, rfl, rfl⟩⟩
  · exact getD_set_self _ _ _ (by omega)
  · exact getD_set_self _ _ _ (by omega)
  · intro j hj
    exact getD_set_ne _ _ _ _ hj
  · intro j hj
    exact getD_set_ne _ _ _ _ hj

theorem increment_spec_witness :
    hTest.WF ∧ List.Chain' (· < ·) hTest.bucketBoundaries ∧
    hTest.bucketIndex 2 ≤ hTest.bucketBoundaries.length :=
  ⟨⟨rfl, rfl⟩, by norm_num [hTest, List.chain'_cons],
    (increment_spec hTest 2 ⟨rfl, rfl⟩ (by norm_num [hTest, List.chain'_cons])).1⟩

/-- C7: Clear zeroes every bucket count, every bucket total, and the two
global counters, leaves the boundaries and Size unchanged, and every read
afterwards returns zero. -/
theorem clear_spec (h : Histogram) (hwf : h.WF) :
    ∃ h', h.Clear = some h' ∧
      h'.bucketBoundaries = h.bucketBoundaries ∧
      h'.Size = h.Size ∧
      (∀ i, i < h'.bucketCounts.length → h'.BucketCount i = some 0) ∧
      (∀ i, i < h'.bucketTotals.length → h'.BucketTotal i = some 0) ∧
      h'.Count = 0 ∧ h'.Total = 0 ∧ h'.Average = 0 ∧
      (∀ i, i < h'.bucketCounts.length → h'.BucketAverage i = some 0) := by
  obtain ⟨hwc, hwt⟩ := hwf
  have hlen : h.bucketCounts.length = h.bucketTotals.length := by omega
  have hne : ¬h.bucketCounts.length = 0 := by omega
  refine ⟨{ h with
      bucketCounts := List.replicate h.bucketCounts.length 0
      bucketTotals := List.replicate h.bucketTotals.length 0
      numSamples := if h.bucketCounts.length = 0 then h.numSamples else 0
      total := if h.bucketCounts.length = 0 then h.total else 0 },
    if_pos hlen, rfl, ?_, ?_, ?_, ?_, ?_, ?_, ?_⟩
  · simp [Histogram.Size, hlen]
  · intro i hi
    simp only [List.length_replicate] at hi
    simp [Histogram.BucketCount, List.getElem?_replicate, hi]
  · intro i hi
    simp only [List.length_replicate] at hi
    simp [Histogram.BucketTotal, List.getElem?_replicate, hi]
  · simp [Histogram.Count, hne]
  · simp [Histogram.Total, hne]
  · simp [Histogram.Average, hne]
  · intro i hi
    simp only [List.length_replicate] at hi
    simp [Histogram.BucketAverage, List.getElem?_replicate, hi]

theorem clear_spec_witness :
    hTest.WF ∧
    ∃ h', hTest.Clear = some h' ∧
      h'.bucketBoundaries = hTest.bucketBoundaries ∧
      h'.Size = hTest.Size ∧
      (∀ i, i < h'.bucketCounts.length → h'.BucketCount i = some 0) ∧
      (∀ i, i < h'.bucketTotals.length → h'.BucketTotal i = some 0) ∧
      h'.Count = 0 ∧ h'.Total = 0 ∧ h'.Average = 0 ∧
      (∀ i, i < h'.bucketCounts.length → h'.BucketAverage i = some 0) :=
  ⟨⟨rfl, rfl⟩, clear_spec hTest ⟨rfl, rfl⟩⟩

/-- For well-formed operands with equal boundary lengths the merge loop
never panics and is elementwise addition. -/
theorem incrementFrom_eq (h s : Histogram) (hwf : h.WF) (swf : s.WF)
    (hlen : s.bucketBoundaries.length = h.bucketBoundaries.length) :
    h.IncrementFromHistogram s = some { h with
      bucketCounts := List.zipWith (· + ·) h.bucketCounts s.bucketCounts
      bucketTotals := List.zipWith (· + ·) h.bucketTotals s.bucketTotals
      numSamples := h.numSamples + s.numSamples
      total := h.total + s.total } := by
  obtain ⟨hwc, hwt⟩ := hwf
  obtain ⟨swc, swt⟩ := swf
  have hct : h.bucketCounts.length = h.bucketTotals.length := by omega
  have hcst : h.bucketCounts.length = s.bucketTotals.length := by omega
  have htak : h.bucketTotals.take h.bucketCounts.length = h.bucketTotals := by
    rw [hct]; exact List.take_length _
  have stak : s.bucketTotals.take h.bucketCounts.length = s.bucketTotals := by
    rw [hcst]; exact List.take_length _
  have hdrp : h.bucketTotals.drop h.bucketCounts.length = [] := by
    rw [hct]; exact List.drop_length _
  rw [Histogram.IncrementFromHistogram, if_pos hlen,
    if_pos ⟨by omega, by omega, by omega⟩, htak, stak, hdrp, List.append_nil]

/-- For well-formed operands with equal boundary lengths the subtract loop
never panics and is elementwise subtraction. -/
theorem decrementFrom_eq (h s : Histogram) (hwf : h.WF) (swf : s.WF)
    (hlen : s.bucketBoundaries.length = h.bucketBoundaries.length) :
    h.DecrementFromHistogram s = some { h with
      bucketCounts := List.zipWith (· - ·) h.bucketCounts s.bucketCounts
      bucketTotals := List.zipWith (· - ·) h.bucketTotals s.bucketTotals
      numSamples := h.numSamples - s.numSamples
      total := h.total - s.total } := by
  obtain ⟨hwc, hwt⟩ := hwf
  obtain ⟨swc, swt⟩ := swf
  have hct : h.bucketCounts.length = h.bucketTotals.length := by omega
  have hcst : h.bucketCounts.length = s.bucketTotals.length := by omega
  have htak : h.bucketTotals.take h.bucketCounts.length = h.bucketTotals := by
    rw [hct]; exact List.take_length _
  have stak : s.bucketTotals.take h.bucketCounts.length = s.bucketTotals := by
    rw [hcst]; exact List.take_length _
  have hdrp : h.bucketTotals.drop h.bucketCounts.length = [] := by
    rw [hct]; exact List.drop_length _
  rw [Histogram.DecrementFromHistogram, if_pos hlen,
    if_pos ⟨by omega, by omega, by omega⟩, htak, stak, hdrp, List.append_nil]

/-- C4: merging a source in and then subtracting it out restores every
bucket count, every bucket total, and both globals of the target. -/
theorem merge_roundtrip (h s : Histogram) (hwf : h.WF) (swf : s.WF)
    (hlen : s.bucketBoundaries.length = h.bucketBoundaries.length) :
    ∃ h1 h2, h.IncrementFromHistogram s = some h1 ∧
      h1.DecrementFromHistogram s = some h2 ∧
      h2.bucketCounts = h.bucketCounts ∧
      h2.bucketTotals = h.bucketTotals ∧
      h2.numSamples = h.numSamples ∧
      h2.total = h.total := by
  obtain ⟨hwc, hwt⟩ := hwf
  obtain ⟨swc, swt⟩ := swf
  have h1wf : Histogram.WF { h with
      bucketCounts := List.zipWith (· + ·) h.bucketCounts s.bucketCounts
      bucketTotals := List.zipWith (· + ·) h.bucketTotals s.bucketTotals
      numSamples := h.numSamples + s.numSamples
      total := h.total + s.total } := by
    constructor
    · simp only [List.length_zipWith]
      omega
    · simp only [List.length_zipWith]
      omega
  refine ⟨_, _, incrementFrom_eq h s ⟨hwc, hwt⟩ ⟨swc, swt⟩ hlen,
    decrementFrom_eq _ s h1wf ⟨swc, swt⟩ (by simpa using hlen), ?_, ?_, ?_, ?_⟩
  · exact zipWith_add_sub_cancel h.bucketCounts s.bucketCounts (by omega)
  · exact zipWith_add_sub_cancel h.bucketTotals s.bucketTotals (by omega)
  · simp
  · simp

theorem merge_roundtrip_witness :
    hTest.WF ∧
    ∃ h1 h2, hTest.IncrementFromHistogram hTest = some h1 ∧
      h1.DecrementFromHistogram hTest = some h2 ∧
      h2.bucketCounts = hTest.bucketCounts ∧
      h2.bucketTotals = hTest.bucketTotals ∧
      h2.numSamples = hTest.numSamples ∧
      h2.total = hTest.total :=
  ⟨⟨rfl, rfl⟩, merge_roundtrip hTest hTest ⟨rfl, rfl⟩ ⟨rfl, rfl⟩ rfl⟩

/-- With value semantics Copy returns a histogram equal to its receiver. -/
theorem copy_eq (h : Histogram) : h.Copy = h := rfl

/-- A successful New yields a well-formed, quiescent histogram. -/
theorem new_ok_wf_quiescent (obs : Option (List Int)) (h0 : Histogram)
    (hnew : New obs = Except.ok h0) : h0.WF ∧ h0.Quiescent := by
  cases obs with
  | none => simp [New] at hnew
  | some bs =>
    simp only [New] at hnew
    split at hnew
    · simp at hnew
    · injection hnew with hnew
      subst hnew
      refine ⟨⟨by simp, by simp⟩, ?_, ?_⟩ <;> simp [Histogram.Quiescent]

/-- Every single step of the operation semantics preserves well-formedness
and the quiescent-state invariant. -/
theorem runOp_preserves (h h' : Histogram) (op : Op) (hwf : h.WF) (hq : h.Quiescent)
    (hsrc : opSourceOK op) (hrun : runOp h op = some h') : h'.WF ∧ h'.Quiescent := by
  obtain ⟨hwc, hwt⟩ := hwf
  obtain ⟨hqc, hqt⟩ := hq
  cases op with
  | increment v =>
    simp only [runOp, Histogram.Increment] at hrun
    split at hrun
    · rename_i hcond
      injection hrun with hrun
      subst hrun
      refine ⟨⟨by simp [List.length_set]; omega, by simp [List.length_set]; omega⟩, ?_, ?_⟩
      · rw [show ({ h with
            bucketCounts := h.bucketCounts.set (h.bucketIndex v)
              (h.bucketCounts.getD (h.bucketIndex v) 0 + 1)
            bucketTotals := h.bucketTotals.set (h.bucketIndex v)
              (h.bucketTotals.getD (h.bucketIndex v) 0 + v)
            numSamples := h.numSamples + 1
            total := h.total + v } : Histogram).numSamples = h.numSamples + 1 from rfl]
        rw [sum_set_getD_add _ _ _ hcond.1, hqc]
      · rw [show ({ h with
            bucketCounts := h.bucketCounts.set (h.bucketIndex v)
              (h.bucketCounts.getD (h.bucketIndex v) 0 + 1)
            bucketTotals := h.bucketTotals.set (h.bucketIndex v)
              (h.bucketTotals.getD (h.bucketIndex v) 0 + v)
            numSamples := h.numSamples + 1
            total := h.total + v } : Histogram).total = h.total + v from rfl]
        rw [sum_set_getD_add _ _ _ hcond.2, hqt]
    · simp at hrun
  | atomicIncrement v =>
    rw [show runOp h (Op.atomicIncrement v) = h.Increment v from rfl] at hrun
    simp only [Histogram.Increment] at hrun
    split at hrun
    · rename_i hcond
      injection hrun with hrun
      subst hrun
      refine ⟨⟨by simp [List.length_set]; omega, by simp [List.length_set]; omega⟩, ?_, ?_⟩
      · rw [show ({ h with
            bucketCounts := h.bucketCounts.set (h.bucketIndex v)
              (h.bucketCounts.getD (h.bucketIndex v) 0 + 1)
            bucketTotals := h.bucketTotals.set (h.bucketIndex v)
              (h.bucketTotals.getD (h.bucketIndex v) 0 + v)
            numSamples := h.numSamples + 1
            total := h.total + v } : Histogram).numSamples = h.numSamples + 1 from rfl]
        rw [sum_set_getD_add _ _ _ hcond.1, hqc]
      · rw [show ({ h with
            bucketCounts := h.bucketCounts.set (h.bucketIndex v)
              (h.bucketCounts.getD (h.bucketIndex v) 0 + 1)
            bucketTotals := h.bucketTotals.set (h.bucketIndex v)
              (h.bucketTotals.getD (h.bucketIndex v) 0 + v)
            numSamples := h.numSamples + 1
            total := h.total + v } : Histogram).total = h.total + v from rfl]
        rw [sum_set_getD_add _ _ _ hcond.2, hqt]
    · simp at hrun
  | clear =>
    simp only [runOp, Histogram.Clear] at hrun
    split at hrun
    · injection hrun with hrun
      subst hrun
      have hne0 : h.bucketCounts ≠ [] := by
        intro hc
        rw [hc] at hwc
        simp at hwc
      refine ⟨⟨by simp; omega, by simp; omega⟩, ?_, ?_⟩ <;>
        simp [hne0, show ¬h.bucketCounts.length = 0 from by omega]
    · simp at hrun
  | incrementFrom o =>
    obtain ⟨⟨owc, owt⟩, oqc, oqt⟩ := hsrc
    by_cases hbl : o.bucketBoundaries.length = h.bucketBoundaries.length
    · rw [show runOp h (Op.incrementFrom o) = h.IncrementFromHistogram o from rfl,
        incrementFrom_eq h o ⟨hwc, hwt⟩ ⟨owc, owt⟩ hbl] at hrun
      injection hrun with hrun
      subst hrun
      refine ⟨⟨by simp [List.length_zipWith]; omega, by simp [List.length_zipWith]; omega⟩, ?_, ?_⟩
      · rw [show ({ h with
            bucketCounts := List.zipWith (· + ·) h.bucketCounts o.bucketCounts
            bucketTotals := List.zipWith (· + ·) h.bucketTotals o.bucketTotals
            numSamples := h.numSamples + o.numSamples
            total := h.total + o.total } : Histogram).numSamples =
            h.numSamples + o.numSamples from rfl]
        rw [sum_zipWith_add _ _ (by omega), hqc, oqc]
      · rw [show ({ h with
            bucketCounts := List.zipWith (· + ·) h.bucketCounts o.bucketCounts
            bucketTotals := List.zipWith (· + ·) h.bucketTotals o.bucketTotals
            numSamples := h.numSamples + o.numSamples
            total := h.total + o.total } : Histogram).total = h.total + o.total from rfl]
        rw [sum_zipWith_add _ _ (by omega), hqt, oqt]
    · rw [show runOp h (Op.incrementFrom o) = h.IncrementFromHistogram o from rfl,
        Histogram.IncrementFromHistogram, if_neg hbl] at hrun
      simp at hrun
  | decrementFrom o =>
    obtain ⟨⟨owc, owt⟩, oqc, oqt⟩ := hsrc
    by_cases hbl : o.bucketBoundaries.length = h.bucketBoundaries.length
    · rw [show runOp h (Op.decrementFrom o) = h.DecrementFromHistogram o from rfl,
        decrementFrom_eq h o ⟨hwc, hwt⟩ ⟨owc, owt⟩ hbl] at hrun
      injection hrun with hrun
      subst hrun
      refine ⟨⟨by simp [List.length_zipWith]; omega, by simp [List.length_zipWith]; omega⟩, ?_, ?_⟩
      · rw [show ({ h with
            bucketCounts := List.zipWith (· - ·) h.bucketCounts o.bucketCounts
            bucketTotals := List.zipWith (· - ·) h.bucketTotals o.bucketTotals
            numSamples := h.numSamples - o.numSamples
            total := h.total - o.total } : Histogram).numSamples =
            h.numSamples - o.numSamples from rfl]
        rw [sum_zipWith_sub _ _ (by omega), hqc, oqc]
      · rw [show ({ h with
            bucketCounts := List.zipWith (· - ·) h.bucketCounts o.bucketCounts
            bucketTotals := List.zipWith (· - ·) h.bucketTotals o.bucketTotals
            numSamples := h.numSamples - o.numSamples
            total := h.total - o.total } : Histogram).total = h.total - o.total from rfl]
        rw [sum_zipWith_sub _ _ (by omega), hqt, oqt]
    · rw [show runOp h (Op.decrementFrom o) = h.DecrementFromHistogram o from rfl,
        Histogram.DecrementFromHistogram, if_neg hbl] at hrun
      simp at hrun
  | copy =>
    rw [show runOp h Op.copy = some h.Copy from rfl, copy_eq] at hrun
    injection hrun with hrun
    subst hrun
    exact ⟨⟨hwc, hwt⟩, hqc, hqt⟩

/-- Sequences of operations preserve well-formedness and quiescence. -/
theorem runOps_preserves (ops : List Op) : ∀ h h' : Histogram, h.WF → h.Quiescent →
    (∀ op ∈ ops, opSourceOK op) → runOps h ops = some h' → h'.WF ∧ h'.Quiescent := by
  induction ops with
  | nil =>
    intro h h' hwf hq _ hrun
    simp only [runOps] at hrun
    injection hrun with hrun
    subst hrun
    exact ⟨hwf, hq⟩
  | cons op rest ih =>
    intro h h' hwf hq hsrc hrun
    simp only [runOps] at hrun
    cases hop : runOp h op with
    | none => rw [hop] at hrun; simp at hrun
    | some h1 =>
      rw [hop] at hrun
      obtain ⟨h1wf, h1q⟩ :=
        runOp_preserves h h1 op hwf hq (hsrc op (List.mem_cons_self op rest)) hop
      exact ih h1 h' h1wf h1q (fun o ho => hsrc o (List.mem_cons_of_mem op ho)) hrun

theorem filterMap_get_range (l : List Int) :
    (List.range l.length).filterMap (fun i => l.get? i) = l := by
  induction l with
  | nil => simp
  | cons a t ih =>
    rw [List.length_cons, List.range_succ_eq_map, List.filterMap_cons, List.filterMap_map]
    simp only [List.get?_cons_zero, Function.comp_def, List.get?_cons_succ]
    rw [ih]

/-- C3: starting from any constructor-built histogram and applying any
finite sequence of single-writer operations (whose merge/subtract sources
are themselves well-formed quiescent histograms), Count equals the sum of
BucketCount(i) over i in [0, Size()) and Total equals the sum of
BucketTotal(i) over the same range. -/
theorem count_total_invariant (obs : Option (List Int)) (h0 h' : Histogram) (ops : List Op)
    (hnew : New obs = Except.ok h0)
    (hsrc : ∀ op ∈ ops, opSourceOK op)
    (hrun : runOps h0 ops = some h') :
    ∃ n, h'.Size = some n ∧
      h'.Count = ((List.range n).filterMap (fun i => h'.BucketCount i)).sum ∧
      h'.Total = ((List.range n).filterMap (fun i => h'.BucketTotal i)).sum := by
  obtain ⟨hwf0, hq0⟩ := new_ok_wf_quiescent obs h0 hnew
  obtain ⟨⟨hwc, hwt⟩, hqc, hqt⟩ := runOps_preserves ops h0 h' hwf0 hq0 hsrc hrun
  refine ⟨h'.bucketCounts.length, ?_, ?_, ?_⟩
  · rw [Histogram.Size, if_pos (by omega)]
  · simp only [Histogram.Count, Histogram.BucketCount]
    rw [filterMap_get_range]
    exact hqc
  · simp only [Histogram.Total, Histogram.BucketTotal]
    rw [show h'.bucketCounts.length = h'.bucketTotals.length from by omega]
    rw [filterMap_get_range]
    exact hqt

theorem count_total_invariant_witness :
    ∃ n, hRun1.Size = some n ∧
      hRun1.Count = ((List.range n).filterMap (fun i => hRun1.BucketCount i)).sum ∧
      hRun1.Total = ((List.range n).filterMap (fun i => hRun1.BucketTotal i)).sum :=
  count_total_invariant (some [1, 2, 3, 4]) hTest hRun1 [Op.increment 1] rfl
    (by
      intro op hop
      rcases List.mem_singleton.mp hop with rfl
      trivial)
    (by
      have hidx : hTest.bucketIndex 1 = 1 := by
        simp [Histogram.bucketIndex, sortSearch, sortSearchAux, hTest]
      simp only [hTest] at hidx
      simp [runOps, runOp, Histogram.Increment, hTest, hidx, hRun1])
